import Mathlib

/-!
Verification of the Longstaff–Schwartz least-squares Monte Carlo (LSMC)
pricing notebook (`LSMC_with_TensorFlow.ipynb`).

The numerical pipeline is embedded shallowly over `ℚ`:

* machine floats become exact rationals;
* the normal draws `dB = √Δt · Z` driving the simulation are an explicit
  input (`Params.dB`), since they are the only source of randomness;
* the two quantities the source obtains from `exp` — the one-step discount
  factor `discount = exp (-r*Δt)` and the drift increment `r*Δt` — are
  carried as explicit parameters `discount` and `rΔt`; the per-column
  discount `exp (-r*i*Δt)` of the source equals `discount ^ i` exactly;
* TensorFlow tensors of shape `[n]` become functions `Fin (N+1) → ℚ`
  (the path count is kept positive so that cross-sectional min/max exist);
* the float-keyed Python dictionaries of the backward recursion become
  total maps `ℕ → Fin (N+1) → ℚ` updated at integer step indices, with the
  dates `t = i·Δt` of the source identified with the indices `i = 0..m`.
-/

namespace LSMC

open Matrix

/-!
## Definitions

All definitions of the embedding come first; the development's theorems
follow.
-/

/-! ### Chebyshev polynomials (mathematical recurrence, spec side)

`chebT k x` is the Chebyshev polynomial of the first kind `T_k` at `x`,
via the recurrence `T_0 = 1`, `T_1 = x`, `T_k = 2x·T_{k-1} − T_{k-2}`.
It is the reference against which the code's basis construction is checked. -/

/-- Structural helper: `chebPair x n = (T_n x, T_(n+1) x)`. -/

def chebPair (x : ℚ) : ℕ → ℚ × ℚ
  | 0 => (1, x)
  | n + 1 =>
    let p := chebPair x n
    (p.2, 2 * x * p.2 - p.1)

/-- Chebyshev polynomial of the first kind `T_n` evaluated at `x`. -/

def chebT (n : ℕ) (x : ℚ) : ℚ :=
  match n with
  | 0 => 1
  | j + 1 => (chebPair x j).2

/-! ### `chebyshev_basis` (code side)

Source (cell 4):
```

def chebyshev_basis(x, k):
    B = {}
    B[0] = tf.ones_like(x)
    B[1] = x
    for n in range(2, k):
        B[n] = 2 * x * B[n - 1] - B[n - 2]
    return tf.stack(list(B.values()), axis=1)
```
The dictionary always receives `B[0]` and `B[1]` before the loop, and the
loop appends `B[2], …, B[k-1]`; the stacked matrix therefore has
`max k 2` columns, and row `i` of it is `[B[0][i], B[1][i], …]`. -/

/-- The loop `for n in range(2, k)` of `chebyshev_basis`, producing the
columns after `B[1]`: given the previous two values `a = B[n-2]` and
`b = B[n-1]` it emits `j` further values starting with `2*x*b - a`. -/

def chebLoop (x : ℚ) : ℕ → ℚ → ℚ → List ℚ
  | 0, _, _ => []
  | j + 1, a, b => (2 * x * b - a) :: chebLoop x j b (2 * x * b - a)

/-- Row of the stacked basis matrix at a single scalar `x`:
`[B[0], B[1], …]` as built by `chebyshev_basis` (length `max k 2`). -/

def chebRow (x : ℚ) (k : ℕ) : List ℚ :=
  1 :: x :: chebLoop x (k - 2) 1 x

/-- `chebyshev_basis x k`, row by row: row `i` of
`tf.stack(list(B.values()), axis=1)` is the list of basis values at `x i`. -/

def chebyshev_basis {N : ℕ} (x : Fin N → ℚ) (k : ℕ) : Fin N → List ℚ :=
  fun i => chebRow (x i) k

/-! ### `first_one` (code side)

Source (cell 4):
```

def first_one(x):
    original = x
    x = tf.cast(x > 0, x.dtype)
    n_columns = x.shape.as_list()[1]
    batch_size = x.shape.as_list()[0]
    x_not = 1 - x
    sum_x = tf.minimum(tf.cumprod(x_not, axis=1), 1.)
    ones = tf.ones([batch_size, 1])
    lag = sum_x[:, :(n_columns - 1)]
    lag = tf.concat([ones, lag], axis=1)
    return original * (lag * x)
```
All operations act row by row (`cumprod` along `axis=1`, the `ones` column
prepended on the left), so the embedding works on a single row, a
`List ℚ`; the matrix version maps it over the rows. -/

/-- Row-wise cumulative product, `tf.cumprod` along a row with running
prefix `c`. -/

def cumprodAux (c : ℚ) : List ℚ → List ℚ
  | [] => []
  | a :: as => (c * a) :: cumprodAux (c * a) as

/-- The cast `tf.cast(x > 0, x.dtype)` of one row. -/

def indicator (xs : List ℚ) : List ℚ :=
  xs.map fun a => if 0 < a then (1 : ℚ) else 0

/-- The row `lag = concat([ones, min(cumprod(1 - cast(x>0)), 1)[:, :-1]])`
of the source. -/

def lagList (xs : List ℚ) : List ℚ :=
  1 :: (((cumprodAux 1 ((indicator xs).map fun a => 1 - a)).map
    fun v => min v 1).take (xs.length - 1))

/-- One row of `first_one`: `original * (lag * cast(x > 0))`. -/

def first_one (xs : List ℚ) : List ℚ :=
  List.zipWith (fun o li => o * li) xs
    (List.zipWith (fun l i => l * i) (lagList xs) (indicator xs))

/-- `first_one` on the whole payoff matrix, row by row. -/

def first_one_matrix (M : List (List ℚ)) : List (List ℚ) :=
  M.map first_one

/-- First-positive extraction as the spec words it: the chronologically
first strictly positive entry of a row is kept at its original value and
every other entry becomes zero. -/

def firstPos : List ℚ → List ℚ
  | [] => []
  | a :: as => if 0 < a then a :: List.replicate as.length 0 else 0 :: firstPos as

/-! ### `scale` (code side)

Source (cell 4):
```

def scale(x):
    xmin = tf.reduce_min(x)
    xmax = tf.reduce_max(x)
    a = 2 / (xmax - xmin)
    b = 1 - a * xmax
    return a * x + b
```
There is no guard: when `xmax = xmin` the code divides by zero. Over `ℚ`
the total division returns `2 / 0 = 0`, so the degenerate output is the
constant-one vector (in IEEE arithmetic it would be non-finite); in both
models the function returns a value rather than failing. -/

/-- Cross-sectional minimum, `tf.reduce_min` over the path dimension. -/

def minCross {N : ℕ} (x : Fin (N + 1) → ℚ) : ℚ :=
  Finset.univ.inf' Finset.univ_nonempty x

/-- Cross-sectional maximum, `tf.reduce_max` over the path dimension. -/

def maxCross {N : ℕ} (x : Fin (N + 1) → ℚ) : ℚ :=
  Finset.univ.sup' Finset.univ_nonempty x

/-- The affine rescaling `a * x + b` with `a = 2/(xmax - xmin)`,
`b = 1 - a * xmax`. -/

def scale {N : ℕ} (x : Fin (N + 1) → ℚ) : Fin (N + 1) → ℚ :=
  fun i => (2 / (maxCross x - minCross x)) * x i
    + (1 - (2 / (maxCross x - minCross x)) * maxCross x)

/-! ### `ridge_regression` (code side)

Source (cell 4):
```

def ridge_regression(X, Y, λ=100):
    β = tf.linalg.lstsq(X, tf.reshape(Y, [-1, 1]), l2_regularizer=100)
    return tf.squeeze(X @ β)
```
`tf.linalg.lstsq` with `l2_regularizer=z` (fast path) solves the
regularized normal equations `(XᵀX + z·I) β = Xᵀ Y`, i.e.
`β = (XᵀX + z·I)⁻¹ Xᵀ Y`.  Note that the body passes the literal `100`,
not the parameter `λ`: the caller's penalty argument is ignored.  The
matrix inverse is realized computably through the adjugate. -/

/-- Computable inverse `(det A)⁻¹ • adjugate A` (the zero matrix when
`det A = 0`, which does not occur for the regularized normal matrix). -/

def matInv {p : ℕ} (A : Matrix (Fin p) (Fin p) ℚ) : Matrix (Fin p) (Fin p) ℚ :=
  (A.det)⁻¹ • A.adjugate

/-- The code's ridge regression: the returned vector is the in-sample fit
`X β` with `β = (XᵀX + 100·I)⁻¹ Xᵀ Y`.  The penalty parameter `lam`
(`λ=100` in the source) is accepted but unused, exactly as in the source,
whose body hardcodes `l2_regularizer=100`. -/

def ridge_regression {N p : ℕ} (X : Matrix (Fin N) (Fin p) ℚ) (Y : Fin N → ℚ)
    (lam : ℚ) : Fin N → ℚ :=
  X *ᵥ (matInv (Xᵀ * X + (100 : ℚ) • 1) *ᵥ (Xᵀ *ᵥ Y))

/-- The ridge objective `‖Xz − Y‖² + λ‖z‖²` from the spec, whose argmin the
regression is required to compute. -/

def ridgeObjective {N p : ℕ} (X : Matrix (Fin N) (Fin p) ℚ) (Y : Fin N → ℚ)
    (lam : ℚ) (z : Fin p → ℚ) : ℚ :=
  (X *ᵥ z - Y) ⬝ᵥ (X *ᵥ z - Y) + lam * (z ⬝ᵥ z)

/-- Design matrix stacked from the basis rows (`tf.stack(..., axis=1)`):
entry `(i, j)` is the `j`-th basis value at `x i`.  The stacked matrix has
`max k 2` columns, since `chebyshev_basis` always emits `B[0]` and `B[1]`. -/

def basisMatrix {N : ℕ} (x : Fin N → ℚ) (k : ℕ) :
    Matrix (Fin N) (Fin (max k 2)) ℚ :=
  Matrix.of fun i j => (chebyshev_basis x k i).getD j 0

/-! ### The pricing pipeline (code side, cell 6)

The main block of the notebook.  `Params` carries the model scalars, the
step count, the polynomial order and the Brownian increments `dB`; the
float-keyed dictionaries `S`, `cashflow`, `value`, `continuation_value`
become maps from the integer step index `i` (the date `t = i·Δt`). -/

/-- Model parameters and randomness of one pricing run over `N+1` paths.
`rΔt` models the drift increment `r*Δt` and `discount` the one-step
factor `exp (-r*Δt)` of the source. -/

structure Params (N : ℕ) where
  m : ℕ
  Spot : ℚ
  σ : ℚ
  K : ℚ
  rΔt : ℚ
  discount : ℚ
  order : ℕ
  dB : ℕ → Fin (N + 1) → ℚ

/-- One Euler step: `out = S + r*S*Δt + σ*S*dB` (with `r*S*Δt = rΔt*S`). -/

def advance {N : ℕ} (P : Params N) (s db : Fin (N + 1) → ℚ) :
    Fin (N + 1) → ℚ :=
  fun p => s p + P.rΔt * s p + P.σ * s p * db p

/-- The simulated stock path dictionary: `S[0] = Spot * ones(n)` and
`S[t] = advance(S[t_previous])` along the time grid. -/

def S {N : ℕ} (P : Params N) : ℕ → Fin (N + 1) → ℚ
  | 0 => fun _ => P.Spot
  | t + 1 => advance P (S P t) (P.dB (t + 1))

/-- `cashflow = {t: tf.maximum(0., K - S[t]) for t in t_span}`. -/

def cashflow {N : ℕ} (P : Params N) (t : ℕ) : Fin (N + 1) → ℚ :=
  fun p => max 0 (P.K - S P t p)

/-- The two dictionaries mutated by the backward loop. -/

structure RecState (N : ℕ) where
  value : ℕ → Fin (N + 1) → ℚ
  cont : ℕ → Fin (N + 1) → ℚ

/-- Dictionary write at key `t` (the maps are total with default `0`;
every key read by the pipeline is written first). -/

def updateAt {N : ℕ} (f : ℕ → Fin (N + 1) → ℚ) (t : ℕ)
    (v : Fin (N + 1) → ℚ) : ℕ → Fin (N + 1) → ℚ :=
  fun s => if s = t then v else f s

/-- One iteration of the backward loop at date `t`:
```
basis = chebyshev_basis(scale(S[t]), order)
continuation_value[t] = ridge_regression(basis, value[t_next])
value[t] = discount * tf.where(cashflow[t] > continuation_value[t],
                               cashflow[t], value[t_next])
``` -/

def stepBack {N : ℕ} (P : Params N) (st : RecState N) (t : ℕ) : RecState N :=
  let cv := ridge_regression (basisMatrix (scale (S P t)) P.order)
    (st.value (t + 1)) 100
  { value := updateAt st.value t
      (fun p => P.discount *
        (if cashflow P t p > cv p then cashflow P t p else st.value (t + 1) p)),
    cont := updateAt st.cont t cv }

/-- `value = {T: cashflow[T] * discount}` and
`continuation_value = {T: tf.zeros(n)}`, at the terminal key `m`. -/

def initState {N : ℕ} (P : Params N) : RecState N :=
  { value := updateAt (fun _ _ => 0) P.m
      (fun p => cashflow P P.m p * P.discount),
    cont := updateAt (fun _ _ => 0) P.m (fun _ => 0) }

/-- The loop index list `t_span[::-1][1:]`, i.e. `[m-1, m-2, …, 1]`. -/

def revSteps (m : ℕ) : List ℕ := (List.range' 1 (m - 1)).reverse

/-- The dictionaries after the whole backward loop has run. -/

def finalState {N : ℕ} (P : Params N) : RecState N :=
  (revSteps P.m).foldl (stepBack P) (initState P)

/-- The raw per-date payoff recorded for extraction:
`payoff = {t: tf.where(continuation_value[t] > cashflow[t], tf.zeros(n),
cashflow[t]) for t in t_span}`. -/

def payoffAt {N : ℕ} (P : Params N) (t : ℕ) : Fin (N + 1) → ℚ :=
  fun p => if (finalState P).cont t p > cashflow P t p then 0
    else cashflow P t p

/-- Row `p` of the stacked payoff matrix `tf.stack(list(payoff.values()),
axis=1)`: the columns are the dates `t_span = [Δt, …, T]`, i.e. column `i`
(0-based) holds the payoff of date index `i+1`. -/

def payoffRow {N : ℕ} (P : Params N) (p : Fin (N + 1)) : List ℚ :=
  (List.range P.m).map fun i => payoffAt P (i + 1) p

/-- Row `p` of the payoff matrix after `payoff = first_one(payoff)`. -/

def exercisedRow {N : ℕ} (P : Params N) (p : Fin (N + 1)) : List ℚ :=
  first_one (payoffRow P p)

/-- `discounted_payoff = {i: payoff[:, i] * tf.exp(-r * i * Δt) for i in
range(m)}`; the factor `exp (-r*i*Δt)` is `discount ^ i` exactly. -/

def discounted_payoff {N : ℕ} (P : Params N) (i : ℕ) : Fin (N + 1) → ℚ :=
  fun p => (exercisedRow P p).getD i 0 * P.discount ^ i

/-- `price = tf.reduce_mean(tf.add_n(list(discounted_payoff.values())))`:
the per-date vectors are summed into one vector over paths and averaged. -/

def price {N : ℕ} (P : Params N) : ℚ :=
  (∑ p : Fin (N + 1), ∑ i ∈ Finset.range P.m, discounted_payoff P i p)
    / (N + 1)

/-! ### Characterizing the backward loop

The loop runs over the strictly decreasing key list `[m-1, …, 1]`; each
iteration writes only its own key and reads `value` at the key one above,
which was written by the previous iteration (or by the initialization).
`stateFrom j` is the state after the iterations `m-1, …, j` have run. -/

/-- State after processing the keys `m-1, m-2, …, j` (all of `revSteps`
when `j = 1`; the initial state when `j ≥ m`). -/

def stateFrom {N : ℕ} (P : Params N) (j : ℕ) : RecState N :=
  ((List.range' j (P.m - j)).reverse).foldl (stepBack P) (initState P)

/-! ### Concrete instances used to check the claims -/

/-- One path, one step: `Spot = 10, σ = 1, K = 8, rΔt = 0, discount = 1/2`,
draw `dB₁ = -1/2`, so `S₁ = 5` and the date-1 cashflow is `3`. -/
def PA : Params 0 :=
  { m := 1, Spot := 10, σ := 1, K := 8, rΔt := 0, discount := 1/2, order := 2,
    dB := fun _ _ => -(1/2) }

/-- Like `PA` but with an invalid negative volatility `σ = -1` (the draw's
sign is flipped so the simulated path is the same). -/
def PB : Params 0 :=
  { m := 1, Spot := 10, σ := -1, K := 8, rΔt := 0, discount := 1/2, order := 2,
    dB := fun _ _ => 1/2 }

/-- Two paths, two steps, engineered so that the date-1 ridge fit equals
the date-1 cashflow exactly on path 0 (both are `1`): `S₁ = S₂ = (4, 6)`,
`K = 5`, `discount = 51`. -/
def P5 : Params 1 :=
  { m := 2, Spot := 1, σ := 1, K := 5, rΔt := 0, discount := 51, order := 2,
    dB := fun t p => if t = 1 then (if p = 0 then 3 else 5) else 0 }

/-- The solution of the date-1 regularized normal equations of `P5`. -/
def β5 : Fin (max P5.order 2) → ℚ := fun j => if (j : ℕ) = 0 then 1/2 else -(1/2)

/-- The one-by-one design matrix `X = [[1]]` of the ridge failing input. -/
def Xc4 : Matrix (Fin 1) (Fin 1) ℚ := fun _ _ => 1

/-- The length-one target `Y = [1]` of the ridge failing input. -/
def Yc4 : Fin 1 → ℚ := fun _ => 1

/-!
## Theorems
-/

theorem chebT_zero (x : ℚ) : chebT 0 x = 1 := rfl

theorem chebT_one (x : ℚ) : chebT 1 x = x := rfl

theorem chebPair_fst (x : ℚ) (n : ℕ) : (chebPair x n).1 = chebT n x := by
  cases n with
  | zero => rfl
  | succ j => rfl

theorem chebT_add_two (n : ℕ) (x : ℚ) :
    chebT (n + 2) x = 2 * x * chebT (n + 1) x - chebT n x := by
  have h : chebT (n + 2) x = 2 * x * (chebPair x n).2 - (chebPair x n).1 := rfl
  rw [h, chebPair_fst]
  rfl

theorem chebLoop_eq_map (x : ℚ) :
    ∀ (j t : ℕ), chebLoop x j (chebT t x) (chebT (t + 1) x) =
      (List.range j).map (fun i => chebT (t + 2 + i) x) := by
  intro j
  induction j with
  | zero => intro t; rfl
  | succ j ih =>
    intro t
    rw [List.range_succ_eq_map]
    simp only [List.map_cons, List.map_map]
    rw [chebLoop, show 2 * x * chebT (t + 1) x - chebT t x = chebT (t + 2) x from
      (chebT_add_two t x).symm]
    congr 1
    rw [show chebT (t + 2) x = chebT ((t + 1) + 1) x from rfl, ih (t + 1)]
    apply List.map_congr_left
    intro i _
    simp only [Function.comp_apply]
    congr 1
    omega

/-- The code's basis row equals `[T_0 x, T_1 x, …, T_(max k 2 - 1) x]`:
the recurrence matches the mathematical Chebyshev recurrence, but the
first two columns are present even when fewer were requested. -/

theorem chebRow_eq_map (x : ℚ) (k : ℕ) :
    chebRow x k = (List.range (max k 2)).map (fun j => chebT j x) := by
  have hl : chebLoop x (k - 2) 1 x
      = (List.range (k - 2)).map (fun i => chebT (0 + 2 + i) x) :=
    chebLoop_eq_map x (k - 2) 0
  have h2 : max k 2 = (k - 2) + 1 + 1 := by omega
  rw [chebRow, hl, h2, List.range_succ_eq_map, List.range_succ_eq_map]
  simp only [List.map_cons, List.map_map, Function.comp_def]
  refine congrArg₂ _ rfl (congrArg₂ _ rfl ?_)
  apply List.map_congr_left
  intro i _
  congr 1
  omega

theorem chebRow_length (x : ℚ) (k : ℕ) : (chebRow x k).length = max k 2 := by
  rw [chebRow_eq_map]; simp

theorem chebRow_getD (x : ℚ) (k : ℕ) (j : ℕ) (h : j < max k 2) :
    (chebRow x k).getD j 0 = chebT j x := by
  rw [chebRow_eq_map, List.getD_eq_getElem _ _ (by simpa using h)]
  simp

theorem cumprodAux_zero (l : List ℚ) :
    cumprodAux 0 l = List.replicate l.length 0 := by
  induction l with
  | nil => rfl
  | cons a as ih => simp [cumprodAux, ih, List.replicate_succ]

theorem map_zero_eq_replicate (l : List ℚ) :
    (l.map fun _ => (0 : ℚ)) = List.replicate l.length 0 := by
  induction l with
  | nil => rfl
  | cons a as ih => simp [ih, List.replicate_succ]

theorem zipWith_li_replicate (is : List ℚ) (n : ℕ) :
    List.zipWith (fun l i => l * i) (List.replicate n (0 : ℚ)) is
      = List.replicate (min n is.length) 0 := by
  induction n generalizing is with
  | zero => simp
  | succ n ih =>
    cases is with
    | nil => simp
    | cons i is' => simp [List.replicate_succ, ih, Nat.succ_min_succ]

theorem zipWith_oli_replicate (as : List ℚ) (n : ℕ) :
    List.zipWith (fun o li => o * li) as (List.replicate n (0 : ℚ))
      = List.replicate (min as.length n) 0 := by
  induction as generalizing n with
  | nil => simp
  | cons a as ih =>
    cases n with
    | zero => simp
    | succ n => simp [List.replicate_succ, ih, Nat.succ_min_succ]

theorem indicator_cons (a : ℚ) (as : List ℚ) :
    indicator (a :: as) = (if 0 < a then (1 : ℚ) else 0) :: indicator as := by
  simp [indicator]

theorem first_one_nil : first_one [] = [] := rfl

theorem first_one_cons_pos (a : ℚ) (as : List ℚ) (h : 0 < a) :
    first_one (a :: as) = a :: List.replicate as.length 0 := by
  have hlen : (indicator as).length = as.length := by simp [indicator]
  have hmap : ((indicator as).map fun b => 1 - b).length = as.length := by
    simp [hlen]
  have hlag : lagList (a :: as) = 1 :: List.replicate as.length 0 := by
    rw [lagList, indicator_cons, if_pos h, List.map_cons]
    rw [show (1 : ℚ) - 1 = 0 by norm_num, cumprodAux]
    rw [show (1 : ℚ) * 0 = 0 by norm_num, cumprodAux_zero, hmap]
    rw [List.map_cons, List.map_replicate]
    rw [show min (0 : ℚ) 1 = 0 by norm_num]
    rw [show ((a :: as).length - 1) = as.length by simp]
    rw [← List.replicate_succ, List.take_replicate]
    simp
  rw [first_one, hlag, indicator_cons, if_pos h, List.zipWith_cons_cons,
    List.zipWith_cons_cons, zipWith_li_replicate, hlen]
  simp [zipWith_oli_replicate]

theorem first_one_cons_nonpos (a : ℚ) (as : List ℚ) (h : ¬ 0 < a) :
    first_one (a :: as) = 0 :: first_one as := by
  have hsum : ((cumprodAux 1 ((indicator (a :: as)).map fun b => 1 - b)).map
      fun v => min v 1)
      = 1 :: ((cumprodAux 1 ((indicator as).map fun b => 1 - b)).map
          fun v => min v 1) := by
    rw [indicator_cons, if_neg h, List.map_cons,
      show (1 : ℚ) - 0 = 1 by norm_num, cumprodAux,
      show (1 : ℚ) * 1 = 1 by norm_num, List.map_cons,
      show min (1 : ℚ) 1 = 1 by norm_num]
  cases as with
  | nil =>
    unfold first_one lagList
    simp [indicator, h]
  | cons b bs =>
    unfold first_one lagList
    rw [hsum, indicator_cons a, if_neg h]
    rw [show ((a :: b :: bs).length - 1) = bs.length + 1 by simp]
    rw [show ((b :: bs).length - 1) = bs.length by simp]
    rw [List.take_succ_cons]
    simp only [List.zipWith_cons_cons]
    congr 1
    ring

theorem first_one_eq_firstPos (xs : List ℚ) : first_one xs = firstPos xs := by
  induction xs with
  | nil => rfl
  | cons a as ih =>
    by_cases h : 0 < a
    · rw [first_one_cons_pos a as h, firstPos, if_pos h]
    · rw [first_one_cons_nonpos a as h, firstPos, if_neg h, ih]

theorem firstPos_length (xs : List ℚ) : (firstPos xs).length = xs.length := by
  induction xs with
  | nil => rfl
  | cons a as ih =>
    rw [firstPos]
    by_cases h : 0 < a
    · rw [if_pos h]; simp
    · rw [if_neg h]; simp [ih]

theorem getD_replicate_zero (n j : ℕ) :
    (List.replicate n (0 : ℚ)).getD j 0 = 0 := by
  induction n generalizing j with
  | zero => simp
  | succ n ih =>
    cases j with
    | zero => simp [List.replicate_succ]
    | succ j => simp [List.replicate_succ, ih j]

/-- Positional characterization of the extractor: entry `j` survives (at
its original value) exactly when it is strictly positive and everything
before it is non-positive. -/

theorem firstPos_getD (xs : List ℚ) (j : ℕ) :
    (firstPos xs).getD j 0 =
      if 0 < xs.getD j 0 ∧ (∀ k, k < j → xs.getD k 0 ≤ 0)
      then xs.getD j 0 else 0 := by
  induction xs generalizing j with
  | nil =>
    simp [firstPos]
  | cons a as ih =>
    by_cases h : 0 < a
    · rw [firstPos, if_pos h]
      cases j with
      | zero =>
        simp [h]
      | succ j =>
        rw [List.getD_cons_succ, List.getD_cons_succ, getD_replicate_zero]
        rw [if_neg]
        rintro ⟨-, hall⟩
        have := hall 0 (Nat.succ_pos j)
        rw [List.getD_cons_zero] at this
        exact absurd h (not_lt.2 this)
    · rw [firstPos, if_neg h]
      cases j with
      | zero =>
        rw [List.getD_cons_zero, List.getD_cons_zero, if_neg]
        rintro ⟨ha, -⟩
        exact h ha
      | succ j =>
        rw [List.getD_cons_succ, List.getD_cons_succ, ih j]
        apply if_congr _ rfl rfl
        constructor
        · rintro ⟨h1, h2⟩
          refine ⟨h1, fun k hk => ?_⟩
          cases k with
          | zero => rw [List.getD_cons_zero]; exact not_lt.1 h
          | succ k => rw [List.getD_cons_succ]; exact h2 k (by omega)
        · rintro ⟨h1, h2⟩
          refine ⟨h1, fun k hk => ?_⟩
          have := h2 (k + 1) (by omega)
          rwa [List.getD_cons_succ] at this

theorem firstPos_replicate (n : ℕ) :
    firstPos (List.replicate n (0 : ℚ)) = List.replicate n 0 := by
  induction n with
  | zero => rfl
  | succ n ih => rw [List.replicate_succ, firstPos, if_neg (by norm_num), ih]

theorem firstPos_idem (xs : List ℚ) : firstPos (firstPos xs) = firstPos xs := by
  induction xs with
  | nil => rfl
  | cons a as ih =>
    by_cases h : 0 < a
    · rw [firstPos, if_pos h, firstPos, if_pos h, List.length_replicate]
    · rw [firstPos, if_neg h, firstPos, if_neg (by norm_num), ih]

theorem firstPos_of_nonpos (xs : List ℚ) (h : ∀ b ∈ xs, b ≤ 0) :
    firstPos xs = List.replicate xs.length 0 := by
  induction xs with
  | nil => rfl
  | cons a as ih =>
    rw [firstPos, if_neg (not_lt.2 (h a (by simp))), List.length_cons,
      List.replicate_succ, ih (fun b hb => h b (by simp [hb]))]

theorem first_one_idem (xs : List ℚ) : first_one (first_one xs) = first_one xs := by
  rw [first_one_eq_firstPos, first_one_eq_firstPos, firstPos_idem]

theorem first_one_getD_nonneg (xs : List ℚ) (j : ℕ) :
    0 ≤ (first_one xs).getD j 0 := by
  rw [first_one_eq_firstPos, firstPos_getD]
  by_cases h : 0 < xs.getD j 0 ∧ ∀ k, k < j → xs.getD k 0 ≤ 0
  · rw [if_pos h]; exact le_of_lt h.1
  · rw [if_neg h]

/-- A row coming out of the extractor has at most one nonzero entry. -/

theorem firstPos_single (xs : List ℚ) (i j : ℕ) (hne : (firstPos xs).getD i 0 ≠ 0)
    (hij : j ≠ i) : (firstPos xs).getD j 0 = 0 := by
  rw [firstPos_getD] at hne ⊢
  by_cases hcond : 0 < xs.getD i 0 ∧ ∀ k, k < i → xs.getD k 0 ≤ 0
  · rcases Nat.lt_or_ge j i with hj | hj
    · rw [if_neg]
      rintro ⟨hpos, -⟩
      exact absurd hpos (not_lt.2 (hcond.2 j hj))
    · rw [if_neg]
      rintro ⟨-, hall⟩
      have hi : i < j := lt_of_le_of_ne hj (Ne.symm hij)
      exact absurd hcond.1 (not_lt.2 (hall i hi))
  · rw [if_neg hcond] at hne
    exact absurd rfl hne

/-- With zero cross-sectional dispersion the code does not fail: the
division-by-zero convention of the rational model makes it return the
constant-one vector. -/

theorem scale_degenerate {N : ℕ} (x : Fin (N + 1) → ℚ)
    (h : minCross x = maxCross x) : scale x = fun _ => 1 := by
  funext i
  rw [scale, h, sub_self, div_zero, zero_mul, zero_mul]
  ring

theorem basisMatrix_apply {N : ℕ} (x : Fin N → ℚ) (k : ℕ) (i : Fin N)
    (j : Fin (max k 2)) : basisMatrix x k i j = chebT j (x i) := by
  rw [basisMatrix]
  show (chebyshev_basis x k i).getD j 0 = _
  rw [chebyshev_basis]
  exact chebRow_getD (x i) k j j.isLt

theorem finalState_eq_stateFrom {N : ℕ} (P : Params N) :
    finalState P = stateFrom P 1 := rfl

theorem stateFrom_of_ge {N : ℕ} (P : Params N) (j : ℕ) (h : P.m ≤ j) :
    stateFrom P j = initState P := by
  rw [stateFrom, show P.m - j = 0 by omega]
  rfl

theorem stateFrom_succ {N : ℕ} (P : Params N) (j : ℕ) (h : j < P.m) :
    stateFrom P j = stepBack P (stateFrom P (j + 1)) j := by
  rw [stateFrom, stateFrom, show P.m - j = (P.m - (j + 1)) + 1 by omega,
    List.range'_succ, List.reverse_cons, List.foldl_append]
  rfl

theorem stepBack_value_ne {N : ℕ} (P : Params N) (st : RecState N) (t s : ℕ)
    (h : s ≠ t) : (stepBack P st t).value s = st.value s := by
  simp [stepBack, updateAt, h]

theorem stepBack_cont_ne {N : ℕ} (P : Params N) (st : RecState N) (t s : ℕ)
    (h : s ≠ t) : (stepBack P st t).cont s = st.cont s := by
  simp [stepBack, updateAt, h]

theorem stepBack_cont_eq {N : ℕ} (P : Params N) (st : RecState N) (t : ℕ) :
    (stepBack P st t).cont t =
      ridge_regression (basisMatrix (scale (S P t)) P.order)
        (st.value (t + 1)) 100 := by
  simp [stepBack, updateAt]

theorem stepBack_value_eq {N : ℕ} (P : Params N) (st : RecState N) (t : ℕ) :
    (stepBack P st t).value t = fun p => P.discount *
      (if cashflow P t p >
          ridge_regression (basisMatrix (scale (S P t)) P.order)
            (st.value (t + 1)) 100 p
        then cashflow P t p else st.value (t + 1) p) := by
  simp [stepBack, updateAt]

/-- Keys at or above `s` are never touched by the iterations below `s`. -/

theorem stateFrom_stable {N : ℕ} (P : Params N) :
    ∀ d j s, s - j ≤ d → j ≤ s →
      (stateFrom P j).value s = (stateFrom P s).value s ∧
      (stateFrom P j).cont s = (stateFrom P s).cont s := by
  intro d
  induction d with
  | zero =>
    intro j s h1 h2
    have hjs : j = s := by omega
    subst hjs
    exact ⟨rfl, rfl⟩
  | succ d ih =>
    intro j s h1 h2
    rcases eq_or_lt_of_le h2 with rfl | hlt
    · exact ⟨rfl, rfl⟩
    · by_cases hm : P.m ≤ j
      · rw [stateFrom_of_ge P j hm, stateFrom_of_ge P s (by omega)]
        exact ⟨rfl, rfl⟩
      · push_neg at hm
        rw [stateFrom_succ P j hm]
        rw [stepBack_value_ne P _ j s (by omega), stepBack_cont_ne P _ j s (by omega)]
        exact ih (j + 1) s (by omega) (by omega)

/-- Initial condition, `value` side: `value[m] = cashflow[m] * discount`. -/

theorem finalState_value_m {N : ℕ} (P : Params N) :
    (finalState P).value P.m = fun p => cashflow P P.m p * P.discount := by
  rw [finalState_eq_stateFrom]
  by_cases hm : 1 ≤ P.m
  · rw [(stateFrom_stable P (P.m - 1) 1 P.m (by omega) hm).1,
      stateFrom_of_ge P P.m (le_refl _)]
    simp [initState, updateAt]
  · rw [stateFrom_of_ge P 1 (by omega)]
    simp [initState, updateAt]

/-- Initial condition, continuation side: `continuation_value[m] = 0`. -/

theorem finalState_cont_m {N : ℕ} (P : Params N) :
    (finalState P).cont P.m = fun _ => 0 := by
  rw [finalState_eq_stateFrom]
  by_cases hm : 1 ≤ P.m
  · rw [(stateFrom_stable P (P.m - 1) 1 P.m (by omega) hm).2,
      stateFrom_of_ge P P.m (le_refl _)]
    simp [initState, updateAt]
  · rw [stateFrom_of_ge P 1 (by omega)]
    simp [initState, updateAt]

/-- Transition, continuation side: for `1 ≤ i < m` the loop sets
`continuation_value[i]` to the ridge fit of `value[i+1]` on the Chebyshev
basis of the rescaled cross-section `S[i]`. -/

theorem finalState_cont_eq {N : ℕ} (P : Params N) (i : ℕ) (h1 : 1 ≤ i)
    (h2 : i < P.m) :
    (finalState P).cont i =
      ridge_regression (basisMatrix (scale (S P i)) P.order)
        ((finalState P).value (i + 1)) 100 := by
  have hv : (stateFrom P (i + 1)).value (i + 1)
      = (finalState P).value (i + 1) := by
    rw [finalState_eq_stateFrom]
    exact ((stateFrom_stable P ((i + 1) - 1) 1 (i + 1) (by omega) (by omega)).1).symm
  calc (finalState P).cont i = (stateFrom P i).cont i := by
        rw [finalState_eq_stateFrom]
        exact (stateFrom_stable P (i - 1) 1 i (by omega) h1).2
    _ = (stepBack P (stateFrom P (i + 1)) i).cont i := by
        rw [← stateFrom_succ P i h2]
    _ = ridge_regression (basisMatrix (scale (S P i)) P.order)
        ((stateFrom P (i + 1)).value (i + 1)) 100 := stepBack_cont_eq P _ i
    _ = ridge_regression (basisMatrix (scale (S P i)) P.order)
        ((finalState P).value (i + 1)) 100 := by rw [hv]

/-- Transition, value side: for `1 ≤ i < m` the loop sets
`value[i] = discount * (cashflow[i] if cashflow[i] > continuation[i]
else value[i+1])`. -/

theorem finalState_value_eq {N : ℕ} (P : Params N) (i : ℕ) (h1 : 1 ≤ i)
    (h2 : i < P.m) :
    (finalState P).value i = fun p => P.discount *
      (if cashflow P i p > (finalState P).cont i p then cashflow P i p
        else (finalState P).value (i + 1) p) := by
  have hv : (stateFrom P (i + 1)).value (i + 1)
      = (finalState P).value (i + 1) := by
    rw [finalState_eq_stateFrom]
    exact ((stateFrom_stable P ((i + 1) - 1) 1 (i + 1) (by omega) (by omega)).1).symm
  have hcont := finalState_cont_eq P i h1 h2
  calc (finalState P).value i = (stateFrom P i).value i := by
        rw [finalState_eq_stateFrom]
        exact (stateFrom_stable P (i - 1) 1 i (by omega) h1).1
    _ = (stepBack P (stateFrom P (i + 1)) i).value i := by
        rw [← stateFrom_succ P i h2]
    _ = fun p => P.discount *
        (if cashflow P i p >
            ridge_regression (basisMatrix (scale (S P i)) P.order)
              ((stateFrom P (i + 1)).value (i + 1)) 100 p
          then cashflow P i p else (stateFrom P (i + 1)).value (i + 1) p) :=
        stepBack_value_eq P _ i
    _ = _ := by rw [hv, ← hcont]

/-! ### Nonnegativity invariants and payoff-matrix shape -/

theorem cashflow_nonneg {N : ℕ} (P : Params N) (t : ℕ) (p : Fin (N + 1)) :
    0 ≤ cashflow P t p :=
  le_max_left 0 _

theorem initState_value_nonneg {N : ℕ} (P : Params N) (hd : 0 ≤ P.discount)
    (s : ℕ) (p : Fin (N + 1)) : 0 ≤ (initState P).value s p := by
  by_cases hs : s = P.m
  · simp only [initState, updateAt, if_pos hs]
    exact mul_nonneg (cashflow_nonneg P P.m p) hd
  · simp [initState, updateAt, hs]

theorem stateFrom_value_nonneg {N : ℕ} (P : Params N) (hd : 0 ≤ P.discount) :
    ∀ d j, P.m - j ≤ d → ∀ s p, 0 ≤ (stateFrom P j).value s p := by
  intro d
  induction d with
  | zero =>
    intro j h s p
    rw [stateFrom_of_ge P j (by omega)]
    exact initState_value_nonneg P hd s p
  | succ d ih =>
    intro j h s p
    by_cases hm : P.m ≤ j
    · rw [stateFrom_of_ge P j hm]
      exact initState_value_nonneg P hd s p
    · push_neg at hm
      rw [stateFrom_succ P j hm]
      by_cases hs : s = j
      · subst hs
        rw [stepBack_value_eq P _ s]
        refine mul_nonneg hd ?_
        by_cases hc : cashflow P s p >
            ridge_regression (basisMatrix (scale (S P s)) P.order)
              ((stateFrom P (s + 1)).value (s + 1)) 100 p
        · rw [if_pos hc]; exact cashflow_nonneg P s p
        · rw [if_neg hc]; exact ih (s + 1) (by omega) (s + 1) p
      · rw [stepBack_value_ne P _ j s hs]
        exact ih (j + 1) (by omega) s p

/-- Every entry of every `value` dictionary is nonnegative when the
discount factor is (as `exp (-r*Δt)` always is). -/

theorem finalState_value_nonneg {N : ℕ} (P : Params N) (hd : 0 ≤ P.discount)
    (s : ℕ) (p : Fin (N + 1)) : 0 ≤ (finalState P).value s p := by
  rw [finalState_eq_stateFrom]
  exact stateFrom_value_nonneg P hd (P.m - 1) 1 (by omega) s p

theorem payoffAt_nonneg {N : ℕ} (P : Params N) (t : ℕ) (p : Fin (N + 1)) :
    0 ≤ payoffAt P t p := by
  rw [payoffAt]
  by_cases hc : (finalState P).cont t p > cashflow P t p
  · rw [if_pos hc]
  · rw [if_neg hc]; exact cashflow_nonneg P t p

theorem exercisedRow_getD_nonneg {N : ℕ} (P : Params N) (p : Fin (N + 1))
    (i : ℕ) : 0 ≤ (exercisedRow P p).getD i 0 :=
  first_one_getD_nonneg (payoffRow P p) i

theorem price_nonneg {N : ℕ} (P : Params N) (hd : 0 ≤ P.discount) :
    0 ≤ price P := by
  rw [price]
  refine div_nonneg ?_ (by positivity)
  refine Finset.sum_nonneg fun p _ => Finset.sum_nonneg fun i _ => ?_
  exact mul_nonneg (exercisedRow_getD_nonneg P p i) (pow_nonneg hd i)

theorem payoffRow_length {N : ℕ} (P : Params N) (p : Fin (N + 1)) :
    (payoffRow P p).length = P.m := by
  simp [payoffRow]

theorem first_one_length (xs : List ℚ) : (first_one xs).length = xs.length := by
  rw [first_one_eq_firstPos, firstPos_length]

theorem exercisedRow_length {N : ℕ} (P : Params N) (p : Fin (N + 1)) :
    (exercisedRow P p).length = P.m := by
  rw [exercisedRow, first_one_length, payoffRow_length]

theorem payoffRow_getD {N : ℕ} (P : Params N) (p : Fin (N + 1)) (i : ℕ) :
    (payoffRow P p).getD i 0 =
      if i < P.m then payoffAt P (i + 1) p else 0 := by
  by_cases hi : i < P.m
  · rw [if_pos hi, payoffRow,
      List.getD_eq_getElem _ _ (by simpa using hi)]
    simp
  · rw [if_neg hi, List.getD_eq_default]
    rw [payoffRow_length]
    omega

/-- The extracted row has at most one nonzero entry, so the per-path sum
of discounted payoffs collapses to the single exercised column. -/

theorem exercised_sum_single {N : ℕ} (P : Params N) (p : Fin (N + 1)) (i : ℕ)
    (hi : i < P.m) (hne : (exercisedRow P p).getD i 0 ≠ 0) :
    (∑ j ∈ Finset.range P.m, discounted_payoff P j p)
      = (exercisedRow P p).getD i 0 * P.discount ^ i := by
  unfold discounted_payoff
  refine Finset.sum_eq_single_of_mem i (Finset.mem_range.2 hi) ?_
  intro j _ hj
  have h0 : (exercisedRow P p).getD j 0 = 0 := by
    have := firstPos_single (payoffRow P p) i j ?_ hj
    · rw [exercisedRow, first_one_eq_firstPos]
      exact this
    · rw [exercisedRow, first_one_eq_firstPos] at hne
      exact hne
  rw [h0, zero_mul]

/-! ### Solvability of the regularized normal equations -/

theorem dotProduct_self_nonneg_q {q : ℕ} (v : Fin q → ℚ) : 0 ≤ v ⬝ᵥ v :=
  Finset.sum_nonneg fun i _ => mul_self_nonneg (v i)

theorem dotProduct_self_pos_q {q : ℕ} (v : Fin q → ℚ) (h : v ≠ 0) :
    0 < v ⬝ᵥ v := by
  rcases Function.ne_iff.1 h with ⟨i, hi⟩
  refine Finset.sum_pos' (fun j _ => mul_self_nonneg (v j))
    ⟨i, Finset.mem_univ i, mul_self_pos.2 ?_⟩
  simpa using hi

/-- The regularized normal matrix `XᵀX + 100·I` is nonsingular for every
design matrix `X`: it is positive definite over `ℚ`. -/
theorem normal_det_ne_zero {n q : ℕ} (X : Matrix (Fin n) (Fin q) ℚ) :
    ((Xᵀ * X) + (100 : ℚ) • 1).det ≠ 0 := by
  intro hdet
  rcases Matrix.exists_mulVec_eq_zero_iff.2 hdet with ⟨v, hv0, hAv⟩
  have h1 : v ⬝ᵥ (((Xᵀ * X) + (100 : ℚ) • 1) *ᵥ v) = 0 := by
    rw [hAv, Matrix.dotProduct_zero]
  have h2 : v ⬝ᵥ (((Xᵀ * X) + (100 : ℚ) • 1) *ᵥ v)
      = (X *ᵥ v) ⬝ᵥ (X *ᵥ v) + 100 * (v ⬝ᵥ v) := by
    rw [Matrix.add_mulVec, Matrix.dotProduct_add]
    congr 1
    · rw [← Matrix.mulVec_mulVec, Matrix.dotProduct_mulVec,
        Matrix.vecMul_transpose]
    · rw [Matrix.smul_mulVec_assoc, Matrix.one_mulVec, Matrix.dotProduct_smul,
        smul_eq_mul]
  have h3 : 0 < (X *ᵥ v) ⬝ᵥ (X *ᵥ v) + 100 * (v ⬝ᵥ v) := by
    have hp := dotProduct_self_pos_q v hv0
    have hq := dotProduct_self_nonneg_q (X *ᵥ v)
    nlinarith
  rw [h2] at h1
  exact absurd h1 (ne_of_gt h3)

theorem matInv_mul_cancel {q : ℕ} (A : Matrix (Fin q) (Fin q) ℚ)
    (h : A.det ≠ 0) : matInv A * A = 1 := by
  rw [matInv, Matrix.smul_mul, Matrix.adjugate_mul, smul_smul,
    inv_mul_cancel₀ h, one_smul]

theorem matInv_mulVec_cancel {q : ℕ} (A : Matrix (Fin q) (Fin q) ℚ)
    (h : A.det ≠ 0) (v : Fin q → ℚ) : matInv A *ᵥ (A *ᵥ v) = v := by
  rw [Matrix.mulVec_mulVec, matInv_mul_cancel A h, Matrix.one_mulVec]

/-- To evaluate the regression it suffices to check the normal equations:
if `(XᵀX + 100·I) b = XᵀY` then the code's output is the fit `X b`. -/
theorem ridge_regression_eq_of_normal {n q : ℕ} (X : Matrix (Fin n) (Fin q) ℚ)
    (Y : Fin n → ℚ) (lam : ℚ) (b : Fin q → ℚ)
    (hb : ((Xᵀ * X) + (100 : ℚ) • 1) *ᵥ b = Xᵀ *ᵥ Y) :
    ridge_regression X Y lam = X *ᵥ b := by
  rw [ridge_regression, ← hb, matInv_mulVec_cancel _ (normal_det_ne_zero X) b]

/-! ### Small evaluation helpers -/

theorem minCross_two (x : Fin (1 + 1) → ℚ) : minCross x = min (x 0) (x 1) := by
  apply le_antisymm
  · exact le_min (Finset.inf'_le _ (Finset.mem_univ 0))
      (Finset.inf'_le _ (Finset.mem_univ 1))
  · apply Finset.le_inf'
    intro b _
    fin_cases b
    · exact min_le_left _ _
    · exact min_le_right _ _

theorem maxCross_two (x : Fin (1 + 1) → ℚ) : maxCross x = max (x 0) (x 1) := by
  apply le_antisymm
  · apply Finset.sup'_le
    intro b _
    fin_cases b
    · exact le_max_left _ _
    · exact le_max_right _ _
  · exact max_le (Finset.le_sup' _ (Finset.mem_univ 0))
      (Finset.le_sup' _ (Finset.mem_univ 1))

theorem sum_univ_paths0 (f : Fin (0 + 1) → ℚ) : (∑ i, f i) = f 0 :=
  Fin.sum_univ_one f

theorem sum_univ_paths1 (f : Fin (1 + 1) → ℚ) : (∑ i, f i) = f 0 + f 1 :=
  Fin.sum_univ_two f

theorem chebT_two_half : chebT 2 ((1 : ℚ) / 2) = -(1 / 2) := by
  rw [chebT_add_two 0, chebT_one, chebT_zero]
  norm_num

/-- The loop visits its keys in strictly decreasing order. -/
theorem revSteps_decr (m : ℕ) : (revSteps m).Pairwise (fun a b => b < a) := by
  rw [revSteps, List.pairwise_reverse]
  exact List.pairwise_lt_range' 1 (m - 1)

/-- The loop visits exactly the steps `m-1, …, 1`. -/
theorem revSteps_mem (m i : ℕ) : i ∈ revSteps m ↔ 1 ≤ i ∧ i < m := by
  rw [revSteps, List.mem_reverse, List.mem_range'_1]
  omega

/-! ### Evaluation at the instance `PA` -/

theorem contPA : (finalState PA).cont 1 0 = 0 := rfl

theorem S_PA1 : S PA 1 0 = 5 := by
  have h : S PA 1 0 = PA.Spot + PA.rΔt * PA.Spot + PA.σ * PA.Spot * PA.dB 1 0 :=
    rfl
  rw [h]
  norm_num [PA]

theorem cfPA : cashflow PA 1 0 = 3 := by
  rw [cashflow, S_PA1]
  norm_num [PA]

theorem payoffPA : payoffAt PA 1 0 = 3 := by
  rw [payoffAt, contPA, cfPA]
  norm_num

theorem rowPA : payoffRow PA 0 = [3] := by
  rw [payoffRow, show PA.m = 1 from rfl,
    show List.range 1 = [0] from rfl, List.map_cons, List.map_nil, payoffPA]

theorem exPA : exercisedRow PA 0 = [3] := by
  rw [exercisedRow, rowPA, first_one_eq_firstPos, firstPos]
  norm_num

theorem pricePA : price PA = 3 := by
  rw [price, show PA.m = 1 from rfl]
  rw [show (∑ p : Fin (0 + 1), ∑ i ∈ Finset.range 1, discounted_payoff PA i p)
      = discounted_payoff PA 0 0 from by
    rw [sum_univ_paths0, Finset.sum_range_one]]
  rw [discounted_payoff, exPA]
  norm_num

/-! ### Evaluation at the instance `PB` (negative volatility) -/

theorem contPB : (finalState PB).cont 1 0 = 0 := rfl

theorem S_PB1 : S PB 1 0 = 5 := by
  have h : S PB 1 0 = PB.Spot + PB.rΔt * PB.Spot + PB.σ * PB.Spot * PB.dB 1 0 :=
    rfl
  rw [h]
  norm_num [PB]

theorem cfPB : cashflow PB 1 0 = 3 := by
  rw [cashflow, S_PB1]
  norm_num [PB]

theorem payoffPB : payoffAt PB 1 0 = 3 := by
  rw [payoffAt, contPB, cfPB]
  norm_num

theorem rowPB : payoffRow PB 0 = [3] := by
  rw [payoffRow, show PB.m = 1 from rfl,
    show List.range 1 = [0] from rfl, List.map_cons, List.map_nil, payoffPB]

theorem exPB : exercisedRow PB 0 = [3] := by
  rw [exercisedRow, rowPB, first_one_eq_firstPos, firstPos]
  norm_num

theorem pricePB : price PB = 3 := by
  rw [price, show PB.m = 1 from rfl]
  rw [show (∑ p : Fin (0 + 1), ∑ i ∈ Finset.range 1, discounted_payoff PB i p)
      = discounted_payoff PB 0 0 from by
    rw [sum_univ_paths0, Finset.sum_range_one]]
  rw [discounted_payoff, exPB]
  norm_num

/-! ### Evaluation at the instance `P5` (an exact tie at date 1, path 0) -/

theorem sum_univ_P5dim (f : Fin (max P5.order 2) → ℚ) :
    (∑ i, f i) = f ⟨0, by norm_num [P5]⟩ + f ⟨1, by norm_num [P5]⟩ :=
  Fin.sum_univ_two f

theorem S51 : S P5 1 0 = 4 ∧ S P5 1 1 = 6 := by
  have h0 : S P5 1 0 = P5.Spot + P5.rΔt * P5.Spot + P5.σ * P5.Spot * P5.dB 1 0 :=
    rfl
  have h1 : S P5 1 1 = P5.Spot + P5.rΔt * P5.Spot + P5.σ * P5.Spot * P5.dB 1 1 :=
    rfl
  rw [h0, h1]
  norm_num [P5]

theorem scale51 : scale (S P5 1) 0 = -1 ∧ scale (S P5 1) 1 = 1 := by
  rw [scale, scale, minCross_two, maxCross_two, S51.1, S51.2]
  norm_num

theorem scale51a : scale (S P5 1) 0 = -1 := scale51.1

theorem scale51b : scale (S P5 1) 1 = 1 := scale51.2

theorem S52 : S P5 2 0 = 4 ∧ S P5 2 1 = 6 := by
  have h0 : S P5 2 0 = S P5 1 0 + P5.rΔt * S P5 1 0 + P5.σ * S P5 1 0 * P5.dB 2 0 :=
    rfl
  have h1 : S P5 2 1 = S P5 1 1 + P5.rΔt * S P5 1 1 + P5.σ * S P5 1 1 * P5.dB 2 1 :=
    rfl
  rw [h0, h1, S51.1, S51.2]
  norm_num [P5]

theorem cf52a : cashflow P5 2 0 = 1 := by
  rw [cashflow, S52.1]
  norm_num [P5]

theorem cf52b : cashflow P5 2 1 = 0 := by
  rw [cashflow, S52.2]
  norm_num [P5]

theorem value52x : ∀ p, (finalState P5).value 2 p = cashflow P5 2 p * 51 := by
  intro p
  have hv : (finalState P5).value 2 = fun q => cashflow P5 P5.m q * P5.discount := by
    rw [show (2 : ℕ) = P5.m from rfl, finalState_value_m]
  rw [hv]
  rfl

theorem value52 : ∀ p, (finalState P5).value (1 + 1) p = cashflow P5 2 p * 51 :=
  value52x

/-- The date-1 normal equations of `P5` hold at `β5`. -/
theorem normal51 : (((basisMatrix (scale (S P5 1)) P5.order)ᵀ *
      basisMatrix (scale (S P5 1)) P5.order) + (100 : ℚ) • 1) *ᵥ β5
    = (basisMatrix (scale (S P5 1)) P5.order)ᵀ *ᵥ ((finalState P5).value (1 + 1)) := by
  funext j
  simp only [Matrix.mulVec, Matrix.dotProduct, Matrix.mul_apply, Matrix.add_apply,
    Matrix.smul_apply, Matrix.one_apply, Matrix.transpose_apply, sum_univ_P5dim,
    sum_univ_paths1, basisMatrix_apply, β5, value52]
  fin_cases j
  · simp only [chebT_zero, chebT_one, scale51a, scale51b, cf52a, cf52b]
    norm_num
  · simp only [chebT_zero, chebT_one, scale51a, scale51b, cf52a, cf52b]
    norm_num

theorem cont51 : (finalState P5).cont 1
    = basisMatrix (scale (S P5 1)) P5.order *ᵥ β5 := by
  rw [finalState_cont_eq P5 1 (le_refl 1) (by norm_num [P5])]
  exact ridge_regression_eq_of_normal _ _ _ β5 normal51

theorem cont51a : (finalState P5).cont 1 0 = 1 := by
  rw [cont51]
  simp only [Matrix.mulVec, Matrix.dotProduct, sum_univ_P5dim, basisMatrix_apply,
    β5]
  simp only [chebT_zero, chebT_one, scale51a]
  norm_num

theorem cf51a : cashflow P5 1 0 = 1 := by
  rw [cashflow, S51.1]
  norm_num [P5]

theorem payoff51 : payoffAt P5 1 0 = 1 := by
  rw [payoffAt, cont51a, cf51a]
  norm_num

/-! ### Evaluation of the ridge regression at the failing input of C4 -/

theorem normalC4 : ((Xc4ᵀ * Xc4) + (100 : ℚ) • 1) *ᵥ (fun _ => 1 / 101)
    = Xc4ᵀ *ᵥ Yc4 := by
  funext j
  fin_cases j
  simp only [Matrix.mulVec, Matrix.dotProduct, Matrix.mul_apply, Matrix.add_apply,
    Matrix.smul_apply, Matrix.one_apply, Matrix.transpose_apply, Fin.sum_univ_one,
    Xc4, Yc4]
  norm_num

theorem ridgeC4 : ridge_regression Xc4 Yc4 0 = Xc4 *ᵥ (fun _ => 1 / 101) :=
  ridge_regression_eq_of_normal Xc4 Yc4 0 (fun _ => 1 / 101) normalC4

theorem ridgeC4_val : ridge_regression Xc4 Yc4 0 0 = 1 / 101 := by
  rw [ridgeC4]
  simp only [Matrix.mulVec, Matrix.dotProduct, Fin.sum_univ_one, Xc4]
  norm_num

theorem objC4_opt : ridgeObjective Xc4 Yc4 0 (fun _ => 1) = 0 := by
  simp only [ridgeObjective, Matrix.mulVec, Matrix.dotProduct, Fin.sum_univ_one,
    Xc4, Yc4, Pi.sub_apply]
  norm_num

theorem objC4_code : 0 < ridgeObjective Xc4 Yc4 0 (fun _ => 1 / 101) := by
  simp only [ridgeObjective, Matrix.mulVec, Matrix.dotProduct, Fin.sum_univ_one,
    Xc4, Yc4, Pi.sub_apply]
  norm_num

/-! ## Claim theorems -/

/-- C1: the backward induction satisfies the claimed recursion. With
`discount` modelling `e^{-rΔt}`: `Value[m] = Cashflow[m]·discount` and
`Continuation[m] = 0`; the loop visits exactly the steps `m-1, …, 1`, in
strictly decreasing order; and at each such step `i` it sets
`Continuation[i]` to the ridge-regression fitted values of target
`Value[i+1]` on the Chebyshev basis of the scaled cross-section `S_i`, and
`Value[i] = discount · (Cashflow[i] if Cashflow[i] > Continuation[i] else
Value[i+1])`, for every path. -/
theorem C1_backward_recursion {N : ℕ} (P : Params N) :
    ((finalState P).value P.m = fun p => cashflow P P.m p * P.discount)
    ∧ ((finalState P).cont P.m = fun _ => 0)
    ∧ (revSteps P.m).Pairwise (fun a b => b < a)
    ∧ (∀ i, i ∈ revSteps P.m ↔ 1 ≤ i ∧ i < P.m)
    ∧ ∀ i, 1 ≤ i → i < P.m →
        (finalState P).cont i =
          ridge_regression (basisMatrix (scale (S P i)) P.order)
            ((finalState P).value (i + 1)) 100
        ∧ (finalState P).value i = fun p => P.discount *
            (if cashflow P i p > (finalState P).cont i p then cashflow P i p
              else (finalState P).value (i + 1) p) :=
  ⟨finalState_value_m P, finalState_cont_m P, revSteps_decr P.m,
   fun i => revSteps_mem P.m i,
   fun i h1 h2 => ⟨finalState_cont_eq P i h1 h2, finalState_value_eq P i h1 h2⟩⟩

/-- Witness for C1 at the concrete two-step instance `P5`. -/
theorem C1_backward_recursion_witness :
    ((finalState P5).value P5.m = fun p => cashflow P5 P5.m p * P5.discount)
    ∧ (finalState P5).cont 1 =
        ridge_regression (basisMatrix (scale (S P5 1)) P5.order)
          ((finalState P5).value (1 + 1)) 100 :=
  ⟨(C1_backward_recursion P5).1,
   ((C1_backward_recursion P5).2.2.2.2 1 (le_refl 1) (by norm_num [P5])).1⟩

/-- C2 counterexample at `PA` (one path, one step): the payoff matrix has
`m = 1` column, not `m + 1 = 2`; its single extracted payoff `3` is
realized at exercise step 1 (asset time `1·Δt`), yet the code prices it at
`3` — the column-index discount `discount^0 = 1` — whereas the claimed
discount `e^{-r·1·Δt} = discount^1` would give `3/2`. -/
theorem C2_discounting_cex :
    (payoffRow PA 0).length = 1
    ∧ PA.m + 1 = 2
    ∧ (1 : ℕ) ≠ 2
    ∧ exercisedRow PA 0 = [3]
    ∧ cashflow PA 1 0 = 3
    ∧ price PA = 3
    ∧ PA.discount ^ 1 * 3 = 3 / 2
    ∧ (3 : ℚ) ≠ 3 / 2 := by
  refine ⟨?_, rfl, by norm_num, exPA, cfPA, pricePA, by norm_num [PA], by norm_num⟩
  rw [payoffRow_length]
  rfl

/-- C2 amended: the payoff matrix consumed by extraction is `n × m` (one
column per exercise date `Δt..T`; column `i`, 0-based, holds the payoff of
date index `i+1`); the extracted payoff in column `i` — asset time
`(i+1)·Δt` — is discounted by `discount^i = e^{-r·i·Δt}`, one time step
short of its asset time; the per-path discounted sum has at most one
nonzero term; and the price is the mean over the `n` paths of these
per-path sums. -/
theorem C2_discounting_amended {N : ℕ} (P : Params N) :
    (∀ p, (payoffRow P p).length = P.m ∧ (exercisedRow P p).length = P.m)
    ∧ (∀ p i, (payoffRow P p).getD i 0
        = if i < P.m then payoffAt P (i + 1) p else 0)
    ∧ (∀ p i, i < P.m → (exercisedRow P p).getD i 0 ≠ 0 →
        (∑ j ∈ Finset.range P.m, discounted_payoff P j p)
          = (exercisedRow P p).getD i 0 * P.discount ^ i)
    ∧ price P = (∑ p : Fin (N + 1), ∑ i ∈ Finset.range P.m,
        (exercisedRow P p).getD i 0 * P.discount ^ i) / (N + 1) :=
  ⟨fun p => ⟨payoffRow_length P p, exercisedRow_length P p⟩,
   fun p i => payoffRow_getD P p i,
   fun p i hi hne => exercised_sum_single P p i hi hne,
   rfl⟩

/-- Witness for C2 (amended) at `PA`: the extracted row has the claimed
length and the per-path sum collapses to its single nonzero column. -/
theorem C2_discounting_amended_witness :
    (exercisedRow PA 0).length = PA.m
    ∧ (∑ j ∈ Finset.range PA.m, discounted_payoff PA j 0)
        = (exercisedRow PA 0).getD 0 0 * PA.discount ^ 0 :=
  ⟨((C2_discounting_amended PA).1 0).2,
   (C2_discounting_amended PA).2.2.1 0 0 (by norm_num [PA])
     (by rw [exPA]; norm_num)⟩

/-- C3: for every input row the extractor keeps exactly the
chronologically first strictly positive entry at its original value (entry
`j` survives exactly when it is positive and all earlier entries are
non-positive), rows without a positive entry come out all-zero, and the
extractor is idempotent — also on whole matrices, row by row. -/
theorem C3_first_one (xs : List ℚ) (M : List (List ℚ)) :
    first_one xs = firstPos xs
    ∧ (first_one xs).length = xs.length
    ∧ (∀ j, (first_one xs).getD j 0 =
        if 0 < xs.getD j 0 ∧ (∀ k, k < j → xs.getD k 0 ≤ 0)
        then xs.getD j 0 else 0)
    ∧ ((∀ b ∈ xs, b ≤ 0) → first_one xs = List.replicate xs.length 0)
    ∧ first_one (first_one xs) = first_one xs
    ∧ first_one_matrix (first_one_matrix M) = first_one_matrix M := by
  refine ⟨first_one_eq_firstPos xs, first_one_length xs, ?_, ?_,
    first_one_idem xs, ?_⟩
  · intro j
    rw [first_one_eq_firstPos, firstPos_getD]
  · intro h
    rw [first_one_eq_firstPos, firstPos_of_nonpos xs h]
  · rw [first_one_matrix, first_one_matrix, List.map_map]
    apply List.map_congr_left
    intro row _
    simp only [Function.comp_apply]
    exact first_one_idem row

/-- Witness for C3: a row with no positive entry comes out all-zero. -/
theorem C3_first_one_witness :
    first_one [(-1 : ℚ), 0] = List.replicate ([(-1 : ℚ), 0].length) 0 :=
  (C3_first_one [(-1 : ℚ), 0] []).2.2.2.1 (by
    intro b hb
    simp only [List.mem_cons, List.not_mem_nil, or_false] at hb
    rcases hb with rfl | rfl <;> norm_num)

/-- C4 (code bug): at the failing input `X = [[1]]`, `Y = [1]`, caller
penalty `λ = 0`, the code ignores `λ` — `tf.linalg.lstsq` is called with
the hardcoded `l2_regularizer=100` — and returns the fit `1/101`; under
the requested `λ = 0` objective the coefficient `z = 1` (fit `1`) is
optimal with objective `0`, strictly below the objective of the
coefficient `1/101` the code used, and the fits differ: `1/101 ≠ 1`. -/
theorem C4_lambda_ignored :
    ridge_regression Xc4 Yc4 0 0 = 1 / 101
    ∧ (Xc4 *ᵥ fun _ => (1 : ℚ)) 0 = 1
    ∧ ridgeObjective Xc4 Yc4 0 (fun _ => 1) = 0
    ∧ 0 < ridgeObjective Xc4 Yc4 0 (fun _ => 1 / 101)
    ∧ (1 : ℚ) / 101 ≠ 1 := by
  refine ⟨ridgeC4_val, ?_, objC4_opt, objC4_code, by norm_num⟩
  simp only [Matrix.mulVec, Matrix.dotProduct, Fin.sum_univ_one, Xc4]
  norm_num

/-- C5 counterexample: in the pipeline `P5` at date 1, path 0, the
continuation value and the cashflow tie exactly (`1 = 1`); the code
records the payoff `1` (`tf.where` keeps the cashflow whenever the
continuation does not strictly exceed it), while the claim — payoff equals
`Cashflow` exactly when `Continuation < Cashflow` holds strictly, else
`0` — requires `0` there. -/
theorem C5_strict_signal_cex :
    (finalState P5).cont 1 0 = 1
    ∧ cashflow P5 1 0 = 1
    ∧ ¬((finalState P5).cont 1 0 < cashflow P5 1 0)
    ∧ payoffAt P5 1 0 = 1
    ∧ (if (finalState P5).cont 1 0 < cashflow P5 1 0
        then cashflow P5 1 0 else 0) = 0
    ∧ (1 : ℚ) ≠ 0 := by
  refine ⟨cont51a, cf51a, ?_, payoff51, ?_, by norm_num⟩
  · rw [cont51a, cf51a]
    norm_num
  · rw [cont51a, cf51a]
    norm_num

/-- C5 amended: at every date (including `m`, where the continuation is
`0`) and for every path, the recorded payoff equals `Cashflow[i]` exactly
when `Continuation[i] ≤ Cashflow[i]` — the negation of the code's strict
`>` test — and `0` otherwise; in particular a tie records the cashflow,
not `0`. -/
theorem C5_signal_amended {N : ℕ} (P : Params N) (t : ℕ) (p : Fin (N + 1)) :
    payoffAt P t p =
      if (finalState P).cont t p ≤ cashflow P t p then cashflow P t p
      else 0 := by
  rw [payoffAt]
  rcases le_or_lt ((finalState P).cont t p) (cashflow P t p) with h | h
  · rw [if_neg (not_lt.2 h), if_pos h]
  · rw [if_pos h, if_neg (not_le.2 h)]

/-- C6 counterexample: for polynomial order `p = 1` the basis matrix has
two columns (`B[0]` and `B[1]` are always emitted before the loop), not
`p = 1` columns. -/
theorem C6_order_one_cex :
    (chebyshev_basis (fun _ => (1 : ℚ) / 2 : Fin 1 → ℚ) 1 0).length = 2
    ∧ (2 : ℕ) ≠ 1 := by
  constructor
  · show (chebRow ((1 : ℚ) / 2) 1).length = 2
    rw [chebRow_length]
    omega
  · norm_num

/-- C6 amended: the basis matrix is `n × max p 2`: for every order
`p ≥ 2` it is `n × p` with columns exactly `T_0 … T_{p-1}` of the
recurrence `T_0 = 1`, `T_1 = x`, `T_k = 2x·T_{k-1} − T_{k-2}` (for
`p ≤ 1` the code still returns the two columns `T_0, T_1`); at `x = 1/2`
the first three column values are `1`, `1/2` and `-1/2`. -/
theorem C6_chebyshev_amended {N : ℕ} (x : Fin N → ℚ) (k : ℕ) (i : Fin N) :
    (chebyshev_basis x k i).length = max k 2
    ∧ (2 ≤ k → (chebyshev_basis x k i).length = k)
    ∧ (∀ j, j < max k 2 → (chebyshev_basis x k i).getD j 0 = chebT j (x i))
    ∧ (∀ n : ℕ, chebT (n + 2) (x i)
        = 2 * x i * chebT (n + 1) (x i) - chebT n (x i))
    ∧ chebT 0 ((1 : ℚ) / 2) = 1
    ∧ chebT 1 ((1 : ℚ) / 2) = 1 / 2
    ∧ chebT 2 ((1 : ℚ) / 2) = -(1 / 2) := by
  refine ⟨chebRow_length (x i) k, ?_, fun j hj => chebRow_getD (x i) k j hj,
    fun n => chebT_add_two n (x i), chebT_zero _, chebT_one _, chebT_two_half⟩
  intro hk
  have h := chebRow_length (x i) k
  rw [show (chebyshev_basis x k i).length = (chebRow (x i) k).length from rfl, h]
  omega

/-- Witness for C6 (amended) at order `3` and `x = 1/2`. -/
theorem C6_chebyshev_amended_witness :
    (chebyshev_basis (fun _ => (1 : ℚ) / 2 : Fin 1 → ℚ) 3 0).length = 3
    ∧ (chebyshev_basis (fun _ => (1 : ℚ) / 2 : Fin 1 → ℚ) 3 0).getD 2 0
        = chebT 2 ((1 : ℚ) / 2) :=
  ⟨(C6_chebyshev_amended (fun _ => (1 : ℚ) / 2) 3 0).2.1 (by norm_num),
   (C6_chebyshev_amended (fun _ => (1 : ℚ) / 2) 3 0).2.2.1 2 (by norm_num)⟩

/-- C7 counterexample: the all-`10` cross-section has zero dispersion —
the scaling denominator `xmax - xmin` is `0` — yet `scale` does not fail:
it performs the division by zero and returns a value (in the rational
model, the constant-one vector; under IEEE arithmetic the same division
produces non-finite values, likewise without raising an error). -/
theorem C7_degenerate_cex :
    maxCross (fun _ => (10 : ℚ) : Fin (1 + 1) → ℚ)
      - minCross (fun _ => (10 : ℚ) : Fin (1 + 1) → ℚ) = 0
    ∧ scale (fun _ => (10 : ℚ) : Fin (1 + 1) → ℚ) = fun _ => 1 := by
  have hmin : minCross (fun _ => (10 : ℚ) : Fin (1 + 1) → ℚ) = 10 := by
    rw [minCross_two]
    norm_num
  have hmax : maxCross (fun _ => (10 : ℚ) : Fin (1 + 1) → ℚ) = 10 := by
    rw [maxCross_two]
    norm_num
  exact ⟨by rw [hmin, hmax, sub_self], scale_degenerate _ (hmin.trans hmax.symm)⟩

/-- C7 amended: `scale` contains no degeneracy check and raises no
`DegenerateInput` error: on every zero-dispersion cross-section it divides
by zero and returns a value — in the exact rational model the constant-one
vector (`a = 2/0 = 0`, `b = 1 - a·xmax = 1`). -/
theorem C7_no_degenerate_error {N : ℕ} (x : Fin (N + 1) → ℚ)
    (h : minCross x = maxCross x) : scale x = fun _ => 1 :=
  scale_degenerate x h

/-- Witness for C7 (amended) at the all-`10` cross-section. -/
theorem C7_no_degenerate_error_witness :
    scale (fun _ => (10 : ℚ) : Fin (1 + 1) → ℚ) = fun _ => 1 :=
  C7_no_degenerate_error _ (by rw [minCross_two, maxCross_two]; norm_num)

/-- C8 counterexample: `PB` has the invalid volatility `σ = -1 < 0`, yet
the simulation advances (`S₁ = 5`) and a price (`3`) is produced — no
`InvalidParameter` failure occurs before (or during) simulation. -/
theorem C8_no_validation_cex :
    PB.σ < 0 ∧ S PB 1 0 = 5 ∧ price PB = 3 :=
  ⟨by norm_num [PB], S_PB1, pricePB⟩

/-- C8 amended: the pipeline validates nothing: for every parameter set,
invalid ones included (negative volatility here), the first simulation
step applies the Euler update and the price is computed by the same mean
formula — no step is skipped and no error is raised. -/
theorem C8_no_validation {N : ℕ} (P : Params N) (h : P.σ < 0) :
    S P 1 = advance P (S P 0) (P.dB 1)
    ∧ price P = (∑ p : Fin (N + 1), ∑ i ∈ Finset.range P.m,
        discounted_payoff P i p) / (N + 1) :=
  ⟨rfl, rfl⟩

/-- Witness for C8 (amended) at `PB`. -/
theorem C8_no_validation_witness :
    price PB = (∑ p : Fin (0 + 1), ∑ i ∈ Finset.range PB.m,
      discounted_payoff PB i p) / (0 + 1) :=
  (C8_no_validation PB (by norm_num [PB])).2

/-- C10: with a nonnegative one-step discount factor (as `e^{-rΔt}`
always is), and for every realization of the draws: every cashflow entry
is nonnegative (being `max 0 (K - S)`), the backward recursion preserves
nonnegativity of every `value` entry, every entry of the extracted payoff
matrix is nonnegative, and the final price is nonnegative. -/
theorem C10_nonnegativity {N : ℕ} (P : Params N) (hd : 0 ≤ P.discount) :
    (∀ t p, 0 ≤ cashflow P t p)
    ∧ (∀ s p, 0 ≤ (finalState P).value s p)
    ∧ (∀ p i, 0 ≤ (exercisedRow P p).getD i 0)
    ∧ 0 ≤ price P :=
  ⟨fun t p => cashflow_nonneg P t p,
   fun s p => finalState_value_nonneg P hd s p,
   fun p i => exercisedRow_getD_nonneg P p i,
   price_nonneg P hd⟩

/-- Witness for C10 at `PA`. -/
theorem C10_nonnegativity_witness :
    (0 : ℚ) ≤ PA.discount ∧ 0 ≤ price PA :=
  ⟨by norm_num [PA], (C10_nonnegativity PA (by norm_num [PA])).2.2.2⟩

end LSMC
